import Mathlib

/-!
Verification of the MHLW emergency-contraception pharmacy finder.

The repository has two consumers of one JSON snapshot of pharmacy records:
a static web UI (docs/app.js) and a LINE bot (line_bot, the unnamed source
file importing express and the bot SDK).  This file shallowly embeds the
record model, text normalization, sanitization, blob building, query
matching, prefecture detection/ordering, paged and top-N presentation and
HTML escaping of both consumers, and proves or refutes the frozen claims
about them.

Strings are modelled as lists of characters (`Str`).  JavaScript string
methods are embedded as executable list functions.  `toLowerCase` is
modelled on the alphabets this data set exercises (ASCII and full-width
Latin letters); on every other character it is the identity, as in
JavaScript for the Japanese text involved.
-/

abbrev Str := List Char

/-- The JavaScript whitespace class `\s` (also used by `String.prototype.trim`). -/
def wsChars : List Char := [
  '\t', '\n', (Char.ofNat 0xb), (Char.ofNat 0xc), '\r', ' ', (Char.ofNat 0xa0), (Char.ofNat 0x1680),
  (Char.ofNat 0x2000), (Char.ofNat 0x2001), (Char.ofNat 0x2002), (Char.ofNat 0x2003), (Char.ofNat 0x2004), (Char.ofNat 0x2005), (Char.ofNat 0x2006), (Char.ofNat 0x2007),
  (Char.ofNat 0x2008), (Char.ofNat 0x2009), (Char.ofNat 0x200a), (Char.ofNat 0x2028), (Char.ofNat 0x2029), (Char.ofNat 0x202f), (Char.ofNat 0x205f), (Char.ofNat 0x3000), (Char.ofNat 0xfeff)
]

def isJsWs (c : Char) : Bool := wsChars.contains c

/-- Case pairs of `String.prototype.toLowerCase` restricted to ASCII and
full-width Latin letters (the alphabets occurring in this data set). -/
def lowerPairs : List (Char × Char) := [
  ('A', 'a'), ('B', 'b'), ('C', 'c'), ('D', 'd'), ('E', 'e'), ('F', 'f'),
  ('G', 'g'), ('H', 'h'), ('I', 'i'), ('J', 'j'), ('K', 'k'), ('L', 'l'),
  ('M', 'm'), ('N', 'n'), ('O', 'o'), ('P', 'p'), ('Q', 'q'), ('R', 'r'),
  ('S', 's'), ('T', 't'), ('U', 'u'), ('V', 'v'), ('W', 'w'), ('X', 'x'),
  ('Y', 'y'), ('Z', 'z'), ('Ａ', 'ａ'), ('Ｂ', 'ｂ'), ('Ｃ', 'ｃ'), ('Ｄ', 'ｄ'),
  ('Ｅ', 'ｅ'), ('Ｆ', 'ｆ'), ('Ｇ', 'ｇ'), ('Ｈ', 'ｈ'), ('Ｉ', 'ｉ'), ('Ｊ', 'ｊ'),
  ('Ｋ', 'ｋ'), ('Ｌ', 'ｌ'), ('Ｍ', 'ｍ'), ('Ｎ', 'ｎ'), ('Ｏ', 'ｏ'), ('Ｐ', 'ｐ'),
  ('Ｑ', 'ｑ'), ('Ｒ', 'ｒ'), ('Ｓ', 'ｓ'), ('Ｔ', 'ｔ'), ('Ｕ', 'ｕ'), ('Ｖ', 'ｖ'),
  ('Ｗ', 'ｗ'), ('Ｘ', 'ｘ'), ('Ｙ', 'ｙ'), ('Ｚ', 'ｚ')
]

def jsToLower (c : Char) : Char :=
  (((lowerPairs.find? (fun p => p.1 == c)).map Prod.snd).getD c)

/-- Full-width digit pairs: `.replace(/[０-９]/g, ch => fromCharCode(code - 0xFEE0))`. -/
def fwDigitPairs : List (Char × Char) := [
  ('０', '0'), ('１', '1'), ('２', '2'), ('３', '3'), ('４', '4'),
  ('５', '5'), ('６', '6'), ('７', '7'), ('８', '8'), ('９', '9')
]

def fwDigitToAscii (c : Char) : Char :=
  (((fwDigitPairs.find? (fun p => p.1 == c)).map Prod.snd).getD c)

/-- Hyphen/dash variants of `.replace(/[－ー―−‐ｰ–—]/g, "-")` in docs/app.js. -/
def hyphenChars : List Char := ['－', 'ー', '―', '−', '‐', 'ｰ', '–', '—']

def hyphenToAscii (c : Char) : Char := if hyphenChars.contains c then '-' else c

/-- Models `.replace(/　/g, " ")`: full-width space to ASCII space, as a character map. -/
def fwSpaceToSpace (c : Char) : Char := if c == '　' then ' ' else c

/-- Models `.replace(/\s+/g, " ")`: each maximal whitespace run becomes one ASCII space.
The boolean argument records whether the previous character was whitespace
(i.e. whether we are inside a run whose space was already emitted). -/
def collapseWsAux : List Char → Bool → List Char
  | [], _ => []
  | c :: t, prevWs =>
    if isJsWs c then
      if prevWs then collapseWsAux t true
      else ' ' :: collapseWsAux t true
    else c :: collapseWsAux t false

def collapseWs (l : Str) : Str := collapseWsAux l false

def trimLeftWs (l : Str) : Str := l.dropWhile isJsWs

/-- Remove trailing JavaScript whitespace. -/
def trimRightWs : Str → Str
  | [] => []
  | c :: t =>
    match trimRightWs t with
    | [] => if isJsWs c then [] else [c]
    | r => c :: r

/-- Models `String.prototype.trim`. -/
def jsTrim (l : Str) : Str := trimRightWs (trimLeftWs l)

/-- UI normalizeText (docs/app.js): lowercase, full-width digits to ASCII,
hyphen variants to "-", full-width space to space, collapse whitespace, trim.
Null/absent input is the empty list. -/
def normalizeText (s : Str) : Str :=
  jsTrim (collapseWs ((((s.map jsToLower).map fwDigitToAscii).map hyphenToAscii).map fwSpaceToSpace))

/-- Bot normalizeText (line_bot): lowercase, collapse whitespace, trim. -/
def botNormalizeText (s : Str) : Str :=
  jsTrim (collapseWs (s.map jsToLower))

/-- cleanValue (docs/app.js): full-width space to space, trim, and map the
case-insensitive sentinel "nan" to the empty string; null becomes "". -/
def cleanValue (s : Str) : Str :=
  let t := jsTrim (s.map fwSpaceToSpace)
  if t.map jsToLower = "nan".data then [] else t

/-- One pharmacy record.  Absent JSON fields are modelled as the empty
string (the code reads them with `|| ""`).  `blob` is the derived `_blob`. -/
structure PharmRec where
  pref : Str
  muni : Str
  name : Str
  addr : Str
  tel : Str
  url : Str
  hours : Str
  privacy : Str
  notes : Str
  callAhead : Str
  afterHours : Str
  blob : Str
deriving DecidableEq

/-- Models `parts.join(" ")`. -/
def joinSp (parts : List Str) : Str := List.intercalate [' '] parts

/-- Models `parts.join("\n")`. -/
def joinNl (parts : List Str) : Str := List.intercalate ['\n'] parts

/-- buildSearchBlob (docs/app.js): clean the six searchable fields, drop
empty results, join with a space, normalize. -/
def buildSearchBlob (r : PharmRec) : Str :=
  normalizeText (joinSp (([r.pref, r.muni, r.name, r.addr, r.tel, r.url].map cleanValue).filter (fun s => !s.isEmpty)))

/-- The UI's load step (init in docs/app.js): clean every known text field,
then attach `_blob` built from the cleaned record. -/
def uiLoadRec (r : PharmRec) : PharmRec :=
  let s := PharmRec.mk (cleanValue r.pref) (cleanValue r.muni) (cleanValue r.name) (cleanValue r.addr)
    (cleanValue r.tel) (cleanValue r.url) (cleanValue r.hours) (cleanValue r.privacy)
    (cleanValue r.notes) (cleanValue r.callAhead) (cleanValue r.afterHours) []
  PharmRec.mk s.pref s.muni s.name s.addr s.tel s.url s.hours s.privacy s.notes s.callAhead s.afterHours (buildSearchBlob s)

/-- The bot's `_blob` construction at load: bot normalizeText over the join
of the truthy raw values of only `pref, muni, name, addr` (no sanitizer). -/
def botBlob (r : PharmRec) : Str :=
  botNormalizeText (joinSp ([r.pref, r.muni, r.name, r.addr].filter (fun s => !s.isEmpty)))

def botLoadRec (r : PharmRec) : PharmRec :=
  PharmRec.mk r.pref r.muni r.name r.addr r.tel r.url r.hours r.privacy r.notes r.callAhead r.afterHours (botBlob r)

/-- Models `hay.includes(needle)`: substring containment. -/
def containsSub : Str → Str → Bool
  | [], needle => needle.isEmpty
  | c :: t, needle => needle.isPrefixOf (c :: t) || containsSub t needle

/-- The UI query: raw prefecture select value, raw free-text value, two toggles. -/
structure Query where
  prefVal : Str
  qVal : Str
  onlyCallAhead : Bool
  onlyAfterHours : Bool

/-- The UI's term list: `q ? q.split(" ").filter(Boolean) : []` over the
normalized free text. -/
def termsOf (qVal : Str) : List Str :=
  let q := normalizeText qVal
  if !q.isEmpty then (List.splitOn ' ' q).filter (fun t => !t.isEmpty) else []

/-- The per-row predicate inside doSearch's filter, with its early returns. -/
def rowPasses (pref : Str) (terms : List Str) (onlyCA onlyAH : Bool) (r : PharmRec) : Bool :=
  if !pref.isEmpty && r.pref != pref then false
  else if onlyCA && r.callAhead != "要".data then false
  else if onlyAH && r.afterHours != "有".data then false
  else if terms.isEmpty then true
  else terms.all (fun t => containsSub r.blob t)

/-- doSearch (docs/app.js): clean the select value, derive terms, filter. -/
def doSearch (data : List PharmRec) (q : Query) : List PharmRec :=
  data.filter (rowPasses (cleanValue q.prefVal) (termsOf q.qVal) q.onlyCallAhead q.onlyAfterHours)

/-- The claim's AND-combined row predicate: exact pref equality, literal
flag values, and every term occurring as a substring of the record's blob. -/
def claimPasses (pref : Str) (terms : List Str) (onlyCA onlyAH : Bool) (r : PharmRec) : Bool :=
  (pref.isEmpty || r.pref == pref) && (!onlyCA || r.callAhead == "要".data)
    && (!onlyAH || r.afterHours == "有".data) && terms.all (fun t => decide (t <:+: r.blob))

/-- The constant `RESULTS_STEP` in docs/app.js. -/
def RESULTS_STEP : Nat := 200

/-- The observable outcome of one renderResults call: the slice actually
rendered, the two counts in the status line, and whether the pager shows
the "show more" button. -/
structure RenderOut (α : Type) where
  shown : List α
  statusTotal : Nat
  statusShown : Nat
  hasMore : Bool
deriving DecidableEq

/-- renderResults (docs/app.js): empty row set short-circuits; otherwise
render `rows.slice(0, limit)`, report total and shown counts, and offer
the "show more" button exactly when fewer rows are shown than exist. -/
def renderResults {α : Type} (rows : List α) (limit : Nat) : RenderOut α :=
  if rows.isEmpty then RenderOut.mk [] 0 0 false
  else
    let shw := rows.take limit
    RenderOut.mk shw rows.length shw.length (decide (shw.length < rows.length))

/-- The "show more" click handler: `CURRENT_LIMIT = min(CURRENT_LIMIT + RESULTS_STEP, rows.length)`. -/
def clickMore {α : Type} (rows : List α) (limit : Nat) : Nat :=
  min (limit + RESULTS_STEP) rows.length

/-- The limit after k activations of "show more", starting from the
initial search limit RESULTS_STEP.  The same `rows` are re-rendered; the
filter is not re-run. -/
def limitSeq {α : Type} (rows : List α) : Nat → Nat
  | 0 => RESULTS_STEP
  | k + 1 => clickMore rows (limitSeq rows k)

/-- The very first unfiltered preview at load: `renderResults(DATA.slice(0, 50), 50, false)`. -/
def initPreview {α : Type} (data : List α) : RenderOut α :=
  renderResults (data.take 50) 50

/-- Models `text.replace(/\s+/g, "")` in detectPref. -/
def stripWsAll (s : Str) : Str := s.filter (fun c => !isJsWs c)

def suffixChars : List Char := ['都', '道', '府', '県']

/-- Models `p.replace(/[都道府県]$/, "")`: drop one trailing administrative suffix. -/
def stripPrefSuffix (p : Str) : Str :=
  match p.getLast? with
  | some c => if suffixChars.contains c then p.dropLast else p
  | none => p

/-- Models `Array.from(new Set(xs))`: deduplication keeping first occurrences. -/
def dedupFirstAux (seen : List Str) : List Str → List Str
  | [] => []
  | x :: xs => if seen.contains x then dedupFirstAux seen xs else x :: dedupFirstAux (x :: seen) xs

/-- The bot's PREFS: distinct prefs of the loaded data, truthy ones only
(the Set is built first, then filtered). -/
def prefsOf (data : List PharmRec) : List Str :=
  (dedupFirstAux [] (data.map (fun r => r.pref))).filter (fun p => !p.isEmpty)

/-- Does the whitespace-stripped text contain prefecture p, as the full
name or (when nonempty) the suffix-stripped short form? -/
def prefMatch (t p : Str) : Bool :=
  containsSub t p || (!(stripPrefSuffix p).isEmpty && containsSub t (stripPrefSuffix p))

def findPref (t : Str) : List Str → Str
  | [] => []
  | p :: ps => if prefMatch t p then p else findPref t ps

/-- detectPref (line_bot): strip all whitespace from the text, then return
the first PREFS entry matching it, or the empty string. -/
def detectPref (data : List PharmRec) (text : Str) : Str :=
  findPref (stripWsAll text) (prefsOf data)

/-- The bot's term list: `normalizeText(text).split(" ").filter(Boolean)`. -/
def botTermsOf (text : Str) : List Str :=
  (List.splitOn ' ' (botNormalizeText text)).filter (fun t => !t.isEmpty)

/-- A term the bot discards as a prefecture token: equal to the detected
pref lowercased, or to its suffix-stripped form lowercased. -/
def isPrefToken (pref t : Str) : Bool :=
  !pref.isEmpty && (t == pref.map jsToLower || t == (stripPrefSuffix pref).map jsToLower)

/-- The `rows` of the bot's search just before `slice(0, 5)`. -/
def botMatchRows (data : List PharmRec) (text : Str) : List PharmRec :=
  let pref := detectPref data text
  let rows := if !pref.isEmpty then data.filter (fun r => r.pref == pref) else data
  let terms2 := (botTermsOf text).filter (fun t => !isPrefToken pref t)
  if !terms2.isEmpty then rows.filter (fun r => terms2.all (fun t => containsSub r.blob t)) else rows

/-- search (line_bot): the matching rows, truncated to the first 5. -/
def botSearch (data : List PharmRec) (text : Str) : List PharmRec :=
  (botMatchRows data text).take 5

/-- The bot's terms2 list (terms surviving the prefecture-token removal). -/
def botTerms2 (data : List PharmRec) (text : Str) : List Str :=
  (botTermsOf text).filter (fun t => !isPrefToken (detectPref data text) t)

/-- formatResult (line_bot): one structured text block per record. -/
def formatResult (r : PharmRec) : Str :=
  let tel := if !r.tel.isEmpty then "📞 ".data ++ r.tel else []
  let url := if !r.url.isEmpty then "🔗 ".data ++ r.url else []
  let ca := if r.callAhead == "要".data then "（事前電話：要）".data else []
  joinNl ([
    "🏥 ".data ++ r.name ++ " ".data ++ ca,
    r.pref ++ (if !r.muni.isEmpty then " ".data ++ r.muni else []),
    r.addr,
    joinNl ([tel, url].filter (fun s => !s.isEmpty))
  ].filter (fun s => !s.isEmpty))

/-- The formatted entries of the bot reply (`hits.map(formatResult)`). -/
def botReplyEntries (data : List PharmRec) (text : Str) : List Str :=
  (botSearch data text).map formatResult

/-- The count shown in the reply line `上位 ${hits.length} 件`. -/
def botReplyCount (data : List PharmRec) (text : Str) : Nat :=
  (botSearch data text).length

/-- PREF_ORDER (docs/app.js): the canonical 47-entry north-to-south table. -/
def PREF_ORDER : List Str :=
  (["北海道", "青森県", "岩手県", "宮城県", "秋田県", "山形県", "福島県",
    "茨城県", "栃木県", "群馬県", "埼玉県", "千葉県", "東京都", "神奈川県",
    "新潟県", "富山県", "石川県", "福井県", "山梨県", "長野県", "岐阜県",
    "静岡県", "愛知県", "三重県", "滋賀県", "京都府", "大阪府", "兵庫県",
    "奈良県", "和歌山県", "鳥取県", "島根県", "岡山県", "広島県", "山口県",
    "徳島県", "香川県", "愛媛県", "高知県", "福岡県", "佐賀県", "長崎県",
    "熊本県", "大分県", "宮崎県", "鹿児島県", "沖縄県"] : List String).map String.data

/-- Models `PREF_RANK.has(p) ? PREF_RANK.get(p) : 999`. -/
def prefRank (p : Str) : Nat :=
  match PREF_ORDER.findIdx? (fun q => q == p) with
  | some i => i
  | none => 999

/-- The sort comparator of fillPrefOptions, as a non-strict order: ranks
compare first; the abstract collator lc models `a.localeCompare(b, "ja")`. -/
def prefLeB (lc : Str → Str → Int) (a b : Str) : Bool :=
  Nat.blt (prefRank a) (prefRank b) || (prefRank a == prefRank b && decide (lc a b ≤ 0))

/-- Array.prototype.sort with the fillPrefOptions comparator, modelled as a
stable sort producing a list ordered by that comparator. -/
def sortPrefs (lc : Str → Str → Int) (names : List Str) : List Str :=
  List.insertionSort (fun a b => prefLeB lc a b = true) names

/-- The UI's distinct prefecture list (filter(Boolean) before the Set). -/
def uiPrefsOf (data : List PharmRec) : List Str :=
  dedupFirstAux [] ((data.map (fun r => r.pref)).filter (fun p => !p.isEmpty))

/-- fillPrefOptions (docs/app.js): distinct prefs of the data, sorted. -/
def fillPrefOptionsList (lc : Str → Str → Int) (data : List PharmRec) : List Str :=
  sortPrefs lc (uiPrefsOf data)

/-- Models `replaceAll` for a single-character pattern. -/
def replaceAllC (pat : Char) (rep : Str) (l : Str) : Str :=
  l.flatMap (fun c => if c == pat then rep else [c])

def quoteChar : Char := Char.ofNat 0x22

def aposChar : Char := Char.ofNat 0x27

/-- escapeHtml (docs/app.js): the five chained replaceAll calls, ampersand first. -/
def escapeHtml (s : Str) : Str :=
  replaceAllC aposChar "&#039;".data
    (replaceAllC quoteChar "&quot;".data
      (replaceAllC '>' "&gt;".data
        (replaceAllC '<' "&lt;".data
          (replaceAllC '&' "&amp;".data s))))

/-- The per-character fragment escapeHtml is equivalent to. -/
def escFrag (c : Char) : Str :=
  if c == '&' then "&amp;".data
  else if c == '<' then "&lt;".data
  else if c == '>' then "&gt;".data
  else if c == quoteChar then "&quot;".data
  else if c == aposChar then "&#039;".data
  else [c]

def entityTails : List Str := ["amp;".data, "lt;".data, "gt;".data, "quot;".data, "#039;".data]

/-- Checks that every ampersand in the list starts one of the five entities. -/
def ampOkB : Str → Bool
  | [] => true
  | c :: t => (if c == '&' then entityTails.any (fun e => e.isPrefixOf t) else true) && ampOkB t

/-- The li.innerHTML card of renderResults, as the string of one record's
rendered markup.  Every field value is interpolated through escapeHtml,
exactly as in the source template. -/
def renderCard (r : PharmRec) : Str :=
  let title := escapeHtml (if !r.name.isEmpty then r.name else "(名称不明)".data)
  let place := escapeHtml (joinSp ([r.pref, r.muni].filter (fun s => !s.isEmpty)))
  let addr := escapeHtml r.addr
  let hours := escapeHtml r.hours
  let privacy := escapeHtml r.privacy
  let notes := escapeHtml r.notes
  let ca := r.callAhead == "要".data
  let ah := r.afterHours == "有".data
  let tel := r.tel
  let telLink := if !tel.isEmpty then "<a href=\"tel:".data ++ escapeHtml tel ++ "\">".data ++ escapeHtml tel ++ "</a>".data else []
  let url := jsTrim r.url
  let urlLink := if !url.isEmpty then "<a href=\"".data ++ escapeHtml url ++ "\" target=\"_blank\" rel=\"noopener\">公式/店舗ページ</a>".data else []
  "<div class=\"card\"><div class=\"cardHead\"><div class=\"name\">".data ++ title
    ++ "</div><div class=\"badges\">".data
    ++ (if ca then "<span class=\"badge warn\">事前電話：要</span>".data else [])
    ++ (if ah then "<span class=\"badge\">時間外：有</span>".data else [])
    ++ "</div></div><div class=\"place\">".data ++ place
    ++ "</div><div class=\"addr\">".data ++ addr
    ++ "</div><div class=\"links\">".data
    ++ (if !telLink.isEmpty then "<span>📞 ".data ++ telLink ++ "</span>".data else [])
    ++ (if !urlLink.isEmpty then "<span>🔗 ".data ++ urlLink ++ "</span>".data else [])
    ++ "</div>".data
    ++ (if !hours.isEmpty then "<div class=\"detail\"><span class=\"k\">開局等時間</span> ".data ++ hours ++ "</div>".data else [])
    ++ (if !privacy.isEmpty then "<div class=\"detail\"><span class=\"k\">プライバシー</span> ".data ++ privacy ++ "</div>".data else [])
    ++ (if !notes.isEmpty then "<div class=\"detail\"><span class=\"k\">備考</span> ".data ++ notes ++ "</div>".data else [])
    ++ "</div>".data

/-- A record with the same branch structure (field emptiness, flag values)
but fixed placeholder field contents.  Used to state that field contents
cannot contribute markup characters to the rendered card. -/
def maskStr (s : Str) : Str := if s.isEmpty then [] else ['x']

def maskRec (r : PharmRec) : PharmRec :=
  PharmRec.mk (maskStr r.pref) (maskStr r.muni) (maskStr r.name) (maskStr r.addr)
    (maskStr r.tel) (maskStr (jsTrim r.url)) (maskStr r.hours) (maskStr r.privacy)
    (maskStr r.notes) r.callAhead r.afterHours r.blob

def ltCount (l : Str) : Nat := l.count '<'

/-- Whitespace characters in canonical output are plain spaces. -/
def okCharB (c : Char) : Bool := !isJsWs c || c == ' '

def headNotWsB : Str → Bool
  | [] => true
  | c :: _ => !isJsWs c

def lastNotWsB : Str → Bool
  | [] => true
  | [c] => !isJsWs c
  | _ :: t => lastNotWsB t

/-- No two adjacent whitespace characters. -/
def noAdjB : Str → Bool
  | [] => true
  | [_] => true
  | a :: b :: t => !(isJsWs a && isJsWs b) && noAdjB (b :: t)

/-- Canonical whitespace shape: only plain single spaces, none adjacent,
none leading or trailing. -/
def wsCanonB (l : Str) : Bool := l.all okCharB && noAdjB l && headNotWsB l && lastNotWsB l

/-- The shared shape of both normalizers: a character map, then whitespace
collapse, then trim. -/
def normGen (f : Char → Char) (s : Str) : Str := jsTrim (collapseWs (s.map f))

/-- Characters that may not appear in escaped output. -/
def htmlSafeB (c : Char) : Bool :=
  !(c == '<') && !(c == '>') && !(c == quoteChar) && !(c == aposChar)

/-! ### Fixtures -/

/-- A Tokyo record with call-ahead flag, as loaded by the bot. -/
def fixTokyo : PharmRec :=
  botLoadRec (PharmRec.mk "東京都".data "港区".data "a".data [] [] [] [] [] [] "要".data [] [])

def fixOsaka : PharmRec :=
  botLoadRec (PharmRec.mk "大阪府".data [] "b".data [] [] [] [] [] [] [] [] [])

/-- Raw record whose tel field distinguishes the two blob constructions. -/
def c3Rec : PharmRec := PharmRec.mk [] [] "a".data [] "9".data [] [] [] [] [] [] []

/-- A minimal matching record for the truncation fixture: its blob contains
the query term "a". -/
def c4Rec : PharmRec := PharmRec.mk "x".data [] [] [] [] [] [] [] [] [] [] "a".data

def c4Data : List PharmRec := List.replicate 12 c4Rec

def c10Data : List PharmRec := [fixTokyo]

/-- A record whose pref is Osaka, listed before Tokyo (for PREFS order). -/
def c6RecOsaka : PharmRec := PharmRec.mk "大阪府".data [] [] [] [] [] [] [] [] [] [] []

def c6RecTokyo : PharmRec := PharmRec.mk "東京都".data [] [] [] [] [] [] [] [] [] [] []

/-! ### Character-level facts -/

def upperDomB (c : Char) : Bool := (lowerPairs.find? (fun p => p.1 == c)).isSome

def fwDigitDomB (c : Char) : Bool := (fwDigitPairs.find? (fun p => p.1 == c)).isSome

def hyphDomB (c : Char) : Bool := hyphenChars.contains c

def fwSpDomB (c : Char) : Bool := c == '　'

/-- A character the UI normalizer's character maps would still change. -/
def uiDomB (c : Char) : Bool := upperDomB c || fwDigitDomB c || hyphDomB c || fwSpDomB c

/-- The composed per-character map of the UI normalizer. -/
def uiMapChar (c : Char) : Char := fwSpaceToSpace (hyphenToAscii (fwDigitToAscii (jsToLower c)))

theorem jsToLower_fix {c : Char} (h : upperDomB c = false) : jsToLower c = c := by
  unfold jsToLower
  unfold upperDomB at h
  cases hf : lowerPairs.find? (fun p => p.1 == c) with
  | none => simp
  | some p => rw [hf] at h; simp at h

theorem fwDigitToAscii_fix {c : Char} (h : fwDigitDomB c = false) : fwDigitToAscii c = c := by
  unfold fwDigitToAscii
  unfold fwDigitDomB at h
  cases hf : fwDigitPairs.find? (fun p => p.1 == c) with
  | none => simp
  | some p => rw [hf] at h; simp at h

theorem hyphenToAscii_fix {c : Char} (h : hyphDomB c = false) : hyphenToAscii c = c := by
  unfold hyphenToAscii
  unfold hyphDomB at h
  rw [h]
  simp

theorem fwSpaceToSpace_fix {c : Char} (h : fwSpDomB c = false) : fwSpaceToSpace c = c := by
  unfold fwSpaceToSpace
  unfold fwSpDomB at h
  simp [h]

theorem uiMapChar_fix {c : Char} (h : uiDomB c = false) : uiMapChar c = c := by
  unfold uiDomB at h
  simp only [Bool.or_eq_false_iff] at h
  unfold uiMapChar
  rw [jsToLower_fix h.1.1.1, fwDigitToAscii_fix h.1.1.2, hyphenToAscii_fix h.1.2,
    fwSpaceToSpace_fix h.2]

theorem lowerPairs_range_free :
    lowerPairs.all (fun p => !uiDomB p.2) = true := by decide

theorem fwDigitPairs_range_free :
    fwDigitPairs.all (fun p => !uiDomB p.2) = true := by decide

theorem hyphen_range_free : uiDomB '-' = false := by decide

theorem space_range_free : uiDomB ' ' = false := by decide

theorem jsToLower_of_dom {c : Char} (h : upperDomB c = true) :
    ∃ p ∈ lowerPairs, p.1 = c ∧ jsToLower c = p.2 := by
  unfold upperDomB at h
  cases hf : lowerPairs.find? (fun p => p.1 == c) with
  | none => rw [hf] at h; simp at h
  | some p =>
    refine ⟨p, List.mem_of_find?_eq_some hf, ?_, ?_⟩
    · have := List.find?_some hf; simpa using this
    · unfold jsToLower; rw [hf]; rfl

theorem fwDigitToAscii_of_dom {c : Char} (h : fwDigitDomB c = true) :
    ∃ p ∈ fwDigitPairs, p.1 = c ∧ fwDigitToAscii c = p.2 := by
  unfold fwDigitDomB at h
  cases hf : fwDigitPairs.find? (fun p => p.1 == c) with
  | none => rw [hf] at h; simp at h
  | some p =>
    refine ⟨p, List.mem_of_find?_eq_some hf, ?_, ?_⟩
    · have := List.find?_some hf; simpa using this
    · unfold fwDigitToAscii; rw [hf]; rfl

theorem uiMapChar_not_dom (c : Char) : uiDomB (uiMapChar c) = false := by
  by_cases h1 : upperDomB c = true
  · obtain ⟨p, hp, hpc, hlc⟩ := jsToLower_of_dom h1
    have hfree : uiDomB p.2 = false := by
      have := List.all_eq_true.mp lowerPairs_range_free p hp
      simpa using this
    unfold uiMapChar
    rw [hlc]
    unfold uiDomB at hfree
    simp only [Bool.or_eq_false_iff] at hfree
    rw [fwDigitToAscii_fix hfree.1.1.2, hyphenToAscii_fix hfree.1.2, fwSpaceToSpace_fix hfree.2]
    unfold uiDomB
    simp [hfree.1.1.1, hfree.1.1.2, hfree.1.2, hfree.2]
  · have h1f : upperDomB c = false := by simpa using h1
    by_cases h2 : fwDigitDomB c = true
    · obtain ⟨p, hp, hpc, hdc⟩ := fwDigitToAscii_of_dom h2
      have hfree : uiDomB p.2 = false := by
        have := List.all_eq_true.mp fwDigitPairs_range_free p hp
        simpa using this
      unfold uiMapChar
      rw [jsToLower_fix h1f, hdc]
      unfold uiDomB at hfree
      simp only [Bool.or_eq_false_iff] at hfree
      rw [hyphenToAscii_fix hfree.1.2, fwSpaceToSpace_fix hfree.2]
      unfold uiDomB
      simp [hfree.1.1.1, hfree.1.1.2, hfree.1.2, hfree.2]
    · have h2f : fwDigitDomB c = false := by simpa using h2
      by_cases h3 : hyphDomB c = true
      · unfold uiMapChar
        rw [jsToLower_fix h1f, fwDigitToAscii_fix h2f]
        unfold hyphenToAscii
        unfold hyphDomB at h3
        rw [if_pos h3]
        have : fwSpaceToSpace '-' = '-' := by decide
        rw [this]
        exact hyphen_range_free
      · have h3f : hyphDomB c = false := by simpa using h3
        by_cases h4 : fwSpDomB c = true
        · have hc : c = '　' := by
            unfold fwSpDomB at h4; simpa using h4
          subst hc
          have : uiMapChar '　' = ' ' := by decide
          rw [this]
          exact space_range_free
        · have h4f : fwSpDomB c = false := by simpa using h4
          have hfree : uiDomB c = false := by
            unfold uiDomB
            simp [h1f, h2f, h3f, h4f]
          rw [uiMapChar_fix hfree]
          exact hfree

theorem uiMapChar_idem (c : Char) : uiMapChar (uiMapChar c) = uiMapChar c :=
  uiMapChar_fix (uiMapChar_not_dom c)

theorem lowerPairs_lower_free :
    lowerPairs.all (fun p => !upperDomB p.2) = true := by decide

theorem jsToLower_not_dom (c : Char) : upperDomB (jsToLower c) = false := by
  by_cases h1 : upperDomB c = true
  · obtain ⟨p, hp, hpc, hlc⟩ := jsToLower_of_dom h1
    rw [hlc]
    have := List.all_eq_true.mp lowerPairs_lower_free p hp
    simpa using this
  · have h1f : upperDomB c = false := by simpa using h1
    rw [jsToLower_fix h1f]
    exact h1f

theorem jsToLower_idem (c : Char) : jsToLower (jsToLower c) = jsToLower c :=
  jsToLower_fix (jsToLower_not_dom c)

theorem uiMapChar_space : uiMapChar ' ' = ' ' := by decide

theorem jsToLower_space : jsToLower ' ' = ' ' := by decide

/-! ### Whitespace canonical-form theory for the normalizers -/

theorem noAdjB_cons (a : Char) (l : Str) :
    noAdjB (a :: l) = ((!(isJsWs a && !headNotWsB l)) && noAdjB l) := by
  cases l with
  | nil => simp [noAdjB, headNotWsB]
  | cons b t => simp [noAdjB, headNotWsB]

theorem lastNotWsB_cons_cons (a b : Char) (t : Str) :
    lastNotWsB (a :: b :: t) = lastNotWsB (b :: t) := rfl

theorem collA_mem {l : Str} {b : Bool} {c : Char} (h : c ∈ collapseWsAux l b) :
    c = ' ' ∨ (c ∈ l ∧ isJsWs c = false) := by
  induction l generalizing b with
  | nil => simp [collapseWsAux] at h
  | cons x t ih =>
    by_cases hx : isJsWs x = true
    · cases b with
      | true =>
        simp only [collapseWsAux, hx, if_true] at h
        rcases ih h with h1 | ⟨h2, h3⟩
        · exact Or.inl h1
        · exact Or.inr ⟨List.mem_cons_of_mem _ h2, h3⟩
      | false =>
        simp only [collapseWsAux, hx, if_true] at h
        rcases List.mem_cons.mp h with h1 | h1
        · exact Or.inl h1
        · rcases ih h1 with h2 | ⟨h3, h4⟩
          · exact Or.inl h2
          · exact Or.inr ⟨List.mem_cons_of_mem _ h3, h4⟩
    · have hx' : isJsWs x = false := by simpa using hx
      simp only [collapseWsAux, hx', Bool.false_eq_true, if_false] at h
      rcases List.mem_cons.mp h with h1 | h1
      · subst h1; exact Or.inr ⟨List.mem_cons_self _ _, hx'⟩
      · rcases ih h1 with h2 | ⟨h3, h4⟩
        · exact Or.inl h2
        · exact Or.inr ⟨List.mem_cons_of_mem _ h3, h4⟩

theorem collA_all_ok (l : Str) (b : Bool) : (collapseWsAux l b).all okCharB = true := by
  rw [List.all_eq_true]
  intro c hc
  rcases collA_mem hc with h | ⟨_, h⟩
  · subst h; decide
  · simp [okCharB, h]

theorem collA_head_true (l : Str) : headNotWsB (collapseWsAux l true) = true := by
  induction l with
  | nil => rfl
  | cons x t ih =>
    by_cases hx : isJsWs x = true
    · simpa [collapseWsAux, hx] using ih
    · have hx' : isJsWs x = false := by simpa using hx
      simp [collapseWsAux, hx', headNotWsB]

theorem collA_noAdj (l : Str) (b : Bool) : noAdjB (collapseWsAux l b) = true := by
  induction l generalizing b with
  | nil => rfl
  | cons x t ih =>
    by_cases hx : isJsWs x = true
    · cases b with
      | true => simpa [collapseWsAux, hx] using ih true
      | false =>
        simp only [collapseWsAux, hx, if_true, Bool.false_eq_true, if_false]
        rw [noAdjB_cons]
        have h1 := collA_head_true t
        have h2 := ih true
        simp [h1, h2]
    · have hx' : isJsWs x = false := by simpa using hx
      simp only [collapseWsAux, hx', Bool.false_eq_true, if_false]
      rw [noAdjB_cons]
      have h2 := ih false
      simp [hx', h2]

theorem trimR_sublist (l : Str) : (trimRightWs l).Sublist l := by
  induction l with
  | nil => exact List.Sublist.refl _
  | cons c t ih =>
    cases h : trimRightWs t with
    | nil =>
      simp only [trimRightWs, h]
      by_cases hc : isJsWs c = true
      · simp only [hc, if_true]; exact List.nil_sublist _
      · have hc' : isJsWs c = false := by simpa using hc
        simp only [hc', Bool.false_eq_true, if_false]
        exact (List.nil_sublist t).cons₂ c
    | cons x r =>
      simp only [trimRightWs, h]
      rw [h] at ih
      exact ih.cons₂ c

theorem trimR_head (c : Char) (t : Str) :
    trimRightWs (c :: t) = [] ∨ ∃ r, trimRightWs (c :: t) = c :: r := by
  cases h : trimRightWs t with
  | nil =>
    simp only [trimRightWs, h]
    by_cases hc : isJsWs c = true
    · simp [hc]
    · have hc' : isJsWs c = false := by simpa using hc
      simp [hc']
  | cons x r => simp [trimRightWs, h]

theorem trimR_headNot {l : Str} (h : headNotWsB l = true) :
    headNotWsB (trimRightWs l) = true := by
  cases l with
  | nil => rfl
  | cons c t =>
    rcases trimR_head c t with h1 | ⟨r, h1⟩
    · rw [h1]; rfl
    · rw [h1]; exact h

theorem trimRightWs_cons (c : Char) (t : Str) :
    trimRightWs (c :: t) = (match trimRightWs t with
      | [] => if isJsWs c then [] else [c]
      | r => c :: r) := rfl

theorem trimR_noAdj {l : Str} (h : noAdjB l = true) : noAdjB (trimRightWs l) = true := by
  induction l with
  | nil => rfl
  | cons c t ih =>
    rw [noAdjB_cons, Bool.and_eq_true] at h
    obtain ⟨h1, h2⟩ := h
    cases ht : trimRightWs t with
    | nil =>
      simp only [trimRightWs, ht]
      by_cases hc : isJsWs c = true
      · simp [hc, noAdjB]
      · have hc' : isJsWs c = false := by simpa using hc
        simp [hc', noAdjB]
    | cons x r =>
      simp only [trimRightWs, ht]
      rw [noAdjB_cons]
      have hnt : noAdjB (x :: r) = true := by rw [← ht]; exact ih h2
      have hhead : headNotWsB (x :: r) = headNotWsB t := by
        cases t with
        | nil => simp [trimRightWs] at ht
        | cons y t2 =>
          rcases trimR_head y t2 with hy | ⟨r2, hy⟩
          · rw [hy] at ht; exact absurd ht (by simp)
          · rw [hy] at ht
            injection ht with hxy hr
            subst hxy
            rfl
      rw [hhead, hnt]
      simpa using h1

theorem trimR_lastNot (l : Str) : lastNotWsB (trimRightWs l) = true := by
  induction l with
  | nil => rfl
  | cons c t ih =>
    cases ht : trimRightWs t with
    | nil =>
      simp only [trimRightWs, ht]
      by_cases hc : isJsWs c = true
      · simp [hc]; rfl
      · have hc' : isJsWs c = false := by simpa using hc
        simp [hc', lastNotWsB]
    | cons x r =>
      simp only [trimRightWs, ht]
      rw [lastNotWsB_cons_cons]
      rw [← ht]
      exact ih

theorem trimR_fix {l : Str} (h : lastNotWsB l = true) : trimRightWs l = l := by
  induction l with
  | nil => rfl
  | cons c t ih =>
    cases t with
    | nil =>
      have hc : isJsWs c = false := by simpa [lastNotWsB] using h
      simp [trimRightWs, hc]
    | cons y t2 =>
      have h2 : lastNotWsB (y :: t2) = true := by rw [← lastNotWsB_cons_cons c]; exact h
      have h3 := ih h2
      rw [trimRightWs_cons, h3]

theorem trimL_headNot (l : Str) : headNotWsB (trimLeftWs l) = true := by
  induction l with
  | nil => rfl
  | cons c t ih =>
    by_cases hc : isJsWs c = true
    · simpa [trimLeftWs, List.dropWhile_cons, hc] using ih
    · have hc' : isJsWs c = false := by simpa using hc
      simp [trimLeftWs, List.dropWhile_cons, hc', headNotWsB]

theorem trimL_noAdj {l : Str} (h : noAdjB l = true) : noAdjB (trimLeftWs l) = true := by
  induction l with
  | nil => rfl
  | cons c t ih =>
    rw [noAdjB_cons, Bool.and_eq_true] at h
    obtain ⟨_, h2⟩ := h
    by_cases hc : isJsWs c = true
    · simpa [trimLeftWs, List.dropWhile_cons, hc] using ih h2
    · have hc' : isJsWs c = false := by simpa using hc
      simp only [trimLeftWs, List.dropWhile_cons, hc', Bool.false_eq_true, if_false]
      rw [noAdjB_cons]
      simp [hc', h2]

theorem trimL_fix {l : Str} (h : headNotWsB l = true) : trimLeftWs l = l := by
  cases l with
  | nil => rfl
  | cons c t =>
    have hc : isJsWs c = false := by simpa [headNotWsB] using h
    simp [trimLeftWs, List.dropWhile_cons, hc]

theorem mem_trimL {l : Str} {c : Char} (h : c ∈ trimLeftWs l) : c ∈ l :=
  (List.dropWhile_sublist _).mem h

theorem mem_jsTrim {l : Str} {c : Char} (h : c ∈ jsTrim l) : c ∈ l :=
  mem_trimL ((trimR_sublist _).mem h)

theorem all_of_sublist {l₁ l₂ : Str} {p : Char → Bool} (hs : l₁.Sublist l₂)
    (h : l₂.all p = true) : l₁.all p = true := by
  rw [List.all_eq_true] at h ⊢
  exact fun c hc => h c (hs.mem hc)

theorem wsCanon_of_trimCollapse (u : Str) : wsCanonB (jsTrim (collapseWs u)) = true := by
  have h0ok : (collapseWs u).all okCharB = true := collA_all_ok u false
  have h0adj : noAdjB (collapseWs u) = true := collA_noAdj u false
  have h1ok : (trimLeftWs (collapseWs u)).all okCharB = true :=
    all_of_sublist (List.dropWhile_sublist _) h0ok
  have h1adj := trimL_noAdj h0adj
  have h1head := trimL_headNot (collapseWs u)
  have h2ok : (jsTrim (collapseWs u)).all okCharB = true :=
    all_of_sublist (trimR_sublist _) h1ok
  have h2adj := trimR_noAdj h1adj
  have h2head := trimR_headNot h1head
  have h2last := trimR_lastNot (trimLeftWs (collapseWs u))
  unfold wsCanonB
  unfold jsTrim at h2ok ⊢
  rw [h2ok, h2adj, h2head, h2last]
  rfl

theorem collapse_fix {l : Str} (hok : l.all okCharB = true) (hadj : noAdjB l = true) :
    collapseWsAux l false = l ∧ (headNotWsB l = true → collapseWsAux l true = l) := by
  induction l with
  | nil => exact ⟨rfl, fun _ => rfl⟩
  | cons c t ih =>
    rw [List.all_cons, Bool.and_eq_true] at hok
    rw [noAdjB_cons, Bool.and_eq_true] at hadj
    obtain ⟨hc, hok'⟩ := hok
    obtain ⟨hadj1, hadj'⟩ := hadj
    obtain ⟨ihf, iht⟩ := ih hok' hadj'
    by_cases hw : isJsWs c = true
    · have hsp : c = ' ' := by
        unfold okCharB at hc
        rw [Bool.or_eq_true] at hc
        rcases hc with h | h
        · rw [hw] at h; simp at h
        · simpa using h
      have hht : headNotWsB t = true := by
        rw [hw] at hadj1; simpa using hadj1
      constructor
      · subst hsp
        simp [collapseWsAux, hw, iht hht]
      · intro hhd
        exfalso
        rw [show headNotWsB (c :: t) = !isJsWs c from rfl, hw] at hhd
        simp at hhd
    · have hw' : isJsWs c = false := by simpa using hw
      constructor
      · simp [collapseWsAux, hw', ihf]
      · intro _
        simp [collapseWsAux, hw', ihf]

theorem collapse_fix_canon {l : Str} (h : wsCanonB l = true) : collapseWs l = l := by
  unfold wsCanonB at h
  rw [Bool.and_eq_true, Bool.and_eq_true, Bool.and_eq_true] at h
  exact (collapse_fix h.1.1.1 h.1.1.2).1

theorem jsTrim_fix_canon {l : Str} (h : wsCanonB l = true) : jsTrim l = l := by
  unfold wsCanonB at h
  rw [Bool.and_eq_true, Bool.and_eq_true, Bool.and_eq_true] at h
  unfold jsTrim
  rw [trimL_fix h.1.2, trimR_fix h.2]

theorem map_fix {l : Str} {f : Char → Char} (h : ∀ c ∈ l, f c = c) : l.map f = l := by
  induction l with
  | nil => rfl
  | cons c t ih =>
    rw [List.map_cons, h c (List.mem_cons_self _ _), ih (fun x hx => h x (List.mem_cons_of_mem _ hx))]

theorem normGen_out_fixed {f : Char → Char} (hsp : f ' ' = ' ')
    (hid : ∀ c, f (f c) = f c) (s : Str) : ∀ c ∈ normGen f s, f c = c := by
  intro c hc
  have hc2 : c ∈ collapseWs (s.map f) := mem_jsTrim hc
  rcases collA_mem hc2 with h | ⟨h, _⟩
  · subst h; exact hsp
  · rcases List.mem_map.mp h with ⟨x, _, hx⟩
    subst hx; exact hid x

theorem normGen_idem {f : Char → Char} (hsp : f ' ' = ' ')
    (hid : ∀ c, f (f c) = f c) (s : Str) : normGen f (normGen f s) = normGen f s := by
  have hcanon := wsCanon_of_trimCollapse (s.map f)
  have hmap : (normGen f s).map f = normGen f s := map_fix (normGen_out_fixed hsp hid s)
  show jsTrim (collapseWs ((normGen f s).map f)) = normGen f s
  rw [hmap]
  have : collapseWs (normGen f s) = normGen f s := collapse_fix_canon hcanon
  rw [this]
  exact jsTrim_fix_canon hcanon

theorem normalizeText_eq_gen (s : Str) : normalizeText s = normGen uiMapChar s := by
  unfold normalizeText normGen uiMapChar
  rw [List.map_map, List.map_map, List.map_map]
  rfl

theorem botNormalizeText_eq_gen (s : Str) : botNormalizeText s = normGen jsToLower s := rfl

/-! ### Substring containment and the UI matcher -/

theorem containsSub_iff {hay needle : Str} : containsSub hay needle = true ↔ needle <:+: hay := by
  induction hay with
  | nil =>
    simp only [containsSub, List.isEmpty_iff]
    constructor
    · intro h; subst h; exact List.infix_rfl
    · intro h; exact List.eq_nil_of_infix_nil h
  | cons c t ih =>
    simp only [containsSub, Bool.or_eq_true, List.isPrefixOf_iff_prefix, ih,
      List.infix_cons_iff]

theorem containsSub_eq_decide (blob t : Str) : containsSub blob t = decide (t <:+: blob) := by
  by_cases h : t <:+: blob
  · rw [containsSub_iff.mpr h, decide_eq_true h]
  · rw [decide_eq_false h]
    rw [← Bool.not_eq_true]
    intro hc
    exact h (containsSub_iff.mp hc)

theorem rowPasses_eq_claimPasses (pref : Str) (terms : List Str) (ca ah : Bool) (r : PharmRec) :
    rowPasses pref terms ca ah r = claimPasses pref terms ca ah r := by
  have hfun : (fun t => containsSub r.blob t) = (fun t => decide (t <:+: r.blob)) :=
    funext (fun t => containsSub_eq_decide r.blob t)
  unfold rowPasses claimPasses
  rw [hfun]
  cases hpe : pref.isEmpty <;> cases hpp : r.pref == pref <;>
    cases hca2 : r.callAhead == "要".data <;> cases hah2 : r.afterHours == "有".data <;>
      cases ca <;> cases ah <;>
        cases terms <;>
          simp [hpe, hpp, hca2, hah2, bne]

/-! ### escapeHtml -/

theorem replaceAllC_cons (p : Char) (rep : Str) (c : Char) (t : Str) :
    replaceAllC p rep (c :: t) = (if c == p then rep else [c]) ++ replaceAllC p rep t := by
  simp [replaceAllC]

theorem replaceAllC_append (p : Char) (rep : Str) (l1 l2 : Str) :
    replaceAllC p rep (l1 ++ l2) = replaceAllC p rep l1 ++ replaceAllC p rep l2 := by
  simp [replaceAllC]

theorem escapeHtml_nil : escapeHtml [] = [] := rfl

theorem escapeHtml_cons (c : Char) (t : Str) :
    escapeHtml (c :: t) = escFrag c ++ escapeHtml t := by
  unfold escapeHtml
  rw [replaceAllC_cons, replaceAllC_append, replaceAllC_append, replaceAllC_append,
    replaceAllC_append]
  congr 1
  by_cases h1 : c = '&'
  · subst h1; rfl
  · by_cases h2 : c = '<'
    · subst h2; rfl
    · by_cases h3 : c = '>'
      · subst h3; rfl
      · by_cases h4 : c = quoteChar
        · subst h4; rfl
        · by_cases h5 : c = aposChar
          · subst h5; rfl
          · simp [replaceAllC, escFrag, h1, h2, h3, h4, h5]

theorem escapeHtml_safe (s : Str) : (escapeHtml s).all htmlSafeB = true := by
  induction s with
  | nil => rfl
  | cons c t ih =>
    rw [escapeHtml_cons, List.all_append, ih, Bool.and_true]
    by_cases h1 : c = '&'
    · subst h1; decide
    · by_cases h2 : c = '<'
      · subst h2; decide
      · by_cases h3 : c = '>'
        · subst h3; decide
        · by_cases h4 : c = quoteChar
          · subst h4; decide
          · by_cases h5 : c = aposChar
            · subst h5; decide
            · simp [escFrag, htmlSafeB, h1, h2, h3, h4, h5]

theorem isPrefixOf_append_self (l x : Str) : l.isPrefixOf (l ++ x) = true := by
  rw [List.isPrefixOf_iff_prefix]
  exact List.prefix_append _ _

theorem ampOkB_cons (c : Char) (t : Str) :
    ampOkB (c :: t) = ((if c == '&' then entityTails.any (fun e => e.isPrefixOf t) else true) && ampOkB t) := rfl

theorem ampOkB_cons_ne {c : Char} (h : (c == '&') = false) (t : Str) :
    ampOkB (c :: t) = ampOkB t := by
  rw [ampOkB_cons, h]
  simp

theorem ampOkB_cons_amp (t : Str) :
    ampOkB ('&' :: t) = (entityTails.any (fun e => e.isPrefixOf t) && ampOkB t) := by
  rw [ampOkB_cons]
  simp

theorem ampOkB_escFrag (c : Char) (l2 : Str) : ampOkB (escFrag c ++ l2) = ampOkB l2 := by
  by_cases h1 : c = '&'
  · subst h1
    show ampOkB ('&' :: ("amp;".data ++ l2)) = ampOkB l2
    rw [ampOkB_cons_amp]
    have hp : entityTails.any (fun e => e.isPrefixOf ("amp;".data ++ l2)) = true := by
      rw [List.any_eq_true]
      exact ⟨"amp;".data, by decide, isPrefixOf_append_self _ _⟩
    rw [hp, Bool.true_and]
    show ampOkB ('a' :: 'm' :: 'p' :: ';' :: l2) = ampOkB l2
    rw [ampOkB_cons_ne (by decide), ampOkB_cons_ne (by decide), ampOkB_cons_ne (by decide),
      ampOkB_cons_ne (by decide)]
  · by_cases h2 : c = '<'
    · subst h2
      show ampOkB ('&' :: ("lt;".data ++ l2)) = ampOkB l2
      rw [ampOkB_cons_amp]
      have hp : entityTails.any (fun e => e.isPrefixOf ("lt;".data ++ l2)) = true := by
        rw [List.any_eq_true]
        exact ⟨"lt;".data, by decide, isPrefixOf_append_self _ _⟩
      rw [hp, Bool.true_and]
      show ampOkB ('l' :: 't' :: ';' :: l2) = ampOkB l2
      rw [ampOkB_cons_ne (by decide), ampOkB_cons_ne (by decide), ampOkB_cons_ne (by decide)]
    · by_cases h3 : c = '>'
      · subst h3
        show ampOkB ('&' :: ("gt;".data ++ l2)) = ampOkB l2
        rw [ampOkB_cons_amp]
        have hp : entityTails.any (fun e => e.isPrefixOf ("gt;".data ++ l2)) = true := by
          rw [List.any_eq_true]
          exact ⟨"gt;".data, by decide, isPrefixOf_append_self _ _⟩
        rw [hp, Bool.true_and]
        show ampOkB ('g' :: 't' :: ';' :: l2) = ampOkB l2
        rw [ampOkB_cons_ne (by decide), ampOkB_cons_ne (by decide), ampOkB_cons_ne (by decide)]
      · by_cases h4 : c = quoteChar
        · subst h4
          show ampOkB ('&' :: ("quot;".data ++ l2)) = ampOkB l2
          rw [ampOkB_cons_amp]
          have hp : entityTails.any (fun e => e.isPrefixOf ("quot;".data ++ l2)) = true := by
            rw [List.any_eq_true]
            exact ⟨"quot;".data, by decide, isPrefixOf_append_self _ _⟩
          rw [hp, Bool.true_and]
          show ampOkB ('q' :: 'u' :: 'o' :: 't' :: ';' :: l2) = ampOkB l2
          rw [ampOkB_cons_ne (by decide), ampOkB_cons_ne (by decide), ampOkB_cons_ne (by decide),
            ampOkB_cons_ne (by decide), ampOkB_cons_ne (by decide)]
        · by_cases h5 : c = aposChar
          · subst h5
            show ampOkB ('&' :: ("#039;".data ++ l2)) = ampOkB l2
            rw [ampOkB_cons_amp]
            have hp : entityTails.any (fun e => e.isPrefixOf ("#039;".data ++ l2)) = true := by
              rw [List.any_eq_true]
              exact ⟨"#039;".data, by decide, isPrefixOf_append_self _ _⟩
            rw [hp, Bool.true_and]
            show ampOkB ('#' :: '0' :: '3' :: '9' :: ';' :: l2) = ampOkB l2
            rw [ampOkB_cons_ne (by decide), ampOkB_cons_ne (by decide), ampOkB_cons_ne (by decide),
              ampOkB_cons_ne (by decide), ampOkB_cons_ne (by decide)]
          · have hfrag : escFrag c = [c] := by
              simp [escFrag, h1, h2, h3, h4, h5]
            rw [hfrag]
            exact ampOkB_cons_ne (beq_eq_false_iff_ne.mpr h1) l2

theorem escapeHtml_ampOk (s : Str) : ampOkB (escapeHtml s) = true := by
  induction s with
  | nil => rfl
  | cons c t ih => rw [escapeHtml_cons, ampOkB_escFrag]; exact ih

theorem ampOkB_spec {l : Str} (h : ampOkB l = true) :
    ∀ l1 l2, l = l1 ++ '&' :: l2 → ∃ e ∈ entityTails, e <+: l2 := by
  induction l with
  | nil =>
    intro l1 l2 heq
    exact absurd heq (by simp)
  | cons c t ih =>
    rw [ampOkB_cons, Bool.and_eq_true] at h
    obtain ⟨hchk, ht⟩ := h
    intro l1 l2 heq
    cases l1 with
    | nil =>
      simp only [List.nil_append] at heq
      injection heq with hc hrest
      subst hc
      subst hrest
      simp only [beq_self_eq_true, if_true] at hchk
      rw [List.any_eq_true] at hchk
      obtain ⟨e, he, hpre⟩ := hchk
      exact ⟨e, he, List.isPrefixOf_iff_prefix.mp hpre⟩
    | cons x l1t =>
      simp only [List.cons_append] at heq
      injection heq with hc hrest
      exact ih ht l1t l2 hrest

theorem escapeHtml_count_lt (s : Str) : List.count '<' (escapeHtml s) = 0 := by
  rw [List.count_eq_zero]
  intro hmem
  have := List.all_eq_true.mp (escapeHtml_safe s) _ hmem
  simp [htmlSafeB] at this

theorem escFrag_ne_nil (c : Char) : escFrag c ≠ [] := by
  unfold escFrag
  by_cases h1 : c = '&'
  · subst h1; decide
  · by_cases h2 : c = '<'
    · subst h2; decide
    · by_cases h3 : c = '>'
      · subst h3; decide
      · by_cases h4 : c = quoteChar
        · subst h4; decide
        · by_cases h5 : c = aposChar
          · subst h5; decide
          · simp [h1, h2, h3, h4, h5]

theorem escapeHtml_isEmpty (s : Str) : (escapeHtml s).isEmpty = s.isEmpty := by
  cases s with
  | nil => rfl
  | cons c t =>
    rw [escapeHtml_cons]
    cases hf : escFrag c with
    | nil => exact absurd hf (escFrag_ne_nil c)
    | cons x r => rfl

/-! ### cleanValue and trim idempotence -/

theorem jsTrim_idem (u : Str) : jsTrim (jsTrim u) = jsTrim u := by
  unfold jsTrim
  have hhead : headNotWsB (trimRightWs (trimLeftWs u)) = true :=
    trimR_headNot (trimL_headNot u)
  rw [trimL_fix hhead]
  exact trimR_fix (trimR_lastNot (trimLeftWs u))

theorem fwSpaceToSpace_idem (c : Char) : fwSpaceToSpace (fwSpaceToSpace c) = fwSpaceToSpace c := by
  unfold fwSpaceToSpace
  by_cases h : c = '　'
  · subst h; simp
  · have hb : (c == '　') = false := beq_eq_false_iff_ne.mpr h
    rw [hb]
    simp [hb]

theorem map_fwSp_trim_fixed (s : Str) :
    (jsTrim (s.map fwSpaceToSpace)).map fwSpaceToSpace = jsTrim (s.map fwSpaceToSpace) := by
  apply map_fix
  intro c hc
  have hmem : c ∈ s.map fwSpaceToSpace := mem_jsTrim hc
  rcases List.mem_map.mp hmem with ⟨x, _, hx⟩
  subst hx
  exact fwSpaceToSpace_idem x

theorem cleanValue_idem (s : Str) : cleanValue (cleanValue s) = cleanValue s := by
  unfold cleanValue
  by_cases h : (jsTrim (s.map fwSpaceToSpace)).map jsToLower = "nan".data
  · rw [if_pos h]
    decide
  · rw [if_neg h]
    rw [map_fwSp_trim_fixed, jsTrim_idem]
    rw [if_neg h]

/-! ### findPref characterization -/

theorem findPref_none {t : Str} {prefs : List Str}
    (h : ∀ p ∈ prefs, prefMatch t p = false) : findPref t prefs = [] := by
  induction prefs with
  | nil => rfl
  | cons q ps ih =>
    have hq := h q (List.mem_cons_self _ _)
    simp only [findPref, hq, Bool.false_eq_true, if_false]
    exact ih (fun p hp => h p (List.mem_cons_of_mem _ hp))

theorem findPref_found {t : Str} {prefs : List Str} {p : Str} (hp : p ∈ prefs)
    (hm : prefMatch t p = true) :
    ∃ l1 l2, prefs = l1 ++ findPref t prefs :: l2 ∧ (∀ q ∈ l1, prefMatch t q = false) ∧
      prefMatch t (findPref t prefs) = true := by
  induction prefs with
  | nil => exact absurd hp (List.not_mem_nil _)
  | cons q ps ih =>
    by_cases hq : prefMatch t q = true
    · refine ⟨[], ps, ?_, ?_, ?_⟩
      · simp [findPref, hq]
      · intro x hx; exact absurd hx (List.not_mem_nil _)
      · simp [findPref, hq]
    · have hq' : prefMatch t q = false := by simpa using hq
      have hps : p ∈ ps := by
        rcases List.mem_cons.mp hp with h | h
        · subst h; rw [hm] at hq'; cases hq'
        · exact h
      obtain ⟨l1, l2, heq, hl1, hm2⟩ := ih hps
      refine ⟨q :: l1, l2, ?_, ?_, ?_⟩
      · simp only [findPref, hq', Bool.false_eq_true, if_false, List.cons_append]
        rw [← heq]
      · intro x hx
        rcases List.mem_cons.mp hx with h | h
        · subst h; exact hq'
        · exact hl1 x h
      · simp only [findPref, hq', Bool.false_eq_true, if_false]
        exact hm2

theorem prefsOf_ne_nil_mem (data : List PharmRec) :
    ∀ p ∈ prefsOf data, p.isEmpty = false := by
  intro p hp
  unfold prefsOf at hp
  have := List.of_mem_filter hp
  simpa using this

/-! ### Paged presenter arithmetic -/

theorem renderResults_shown_len {α : Type} (rows : List α) (limit : Nat) :
    (renderResults rows limit).shown.length = min limit rows.length := by
  unfold renderResults
  by_cases h : rows.isEmpty = true
  · have := List.isEmpty_iff.mp h
    subst this
    simp
  · have hne : rows.isEmpty = false := by simpa using h
    simp [hne, List.length_take]

theorem renderResults_fields {α : Type} (rows : List α) (limit : Nat) (h : rows ≠ []) :
    (renderResults rows limit).statusTotal = rows.length ∧
    (renderResults rows limit).statusShown = (rows.take limit).length ∧
    (renderResults rows limit).hasMore = decide ((rows.take limit).length < rows.length) := by
  have hne : rows.isEmpty = false := by
    cases rows with
    | nil => exact absurd rfl h
    | cons a t => rfl
  unfold renderResults
  rw [hne]
  exact ⟨rfl, rfl, rfl⟩

theorem limitSeq_min {α : Type} (rows : List α) (k : Nat) :
    min (limitSeq rows k) rows.length = min (RESULTS_STEP * (k + 1)) rows.length := by
  induction k with
  | zero =>
    have : RESULTS_STEP * (0 + 1) = RESULTS_STEP := by ring
    rw [this]
    rfl
  | succ k ih =>
    show min (clickMore rows (limitSeq rows k)) rows.length = _
    unfold clickMore
    unfold RESULTS_STEP at ih ⊢
    generalize limitSeq rows k = a at ih
    generalize rows.length = n at ih ⊢
    omega

/-! ### Prefecture order comparator -/

theorem prefRank_bound (p : Str) : prefRank p < 47 ∨ prefRank p = 999 := by
  unfold prefRank
  cases h : PREF_ORDER.findIdx? (fun q => q == p) with
  | none => exact Or.inr rfl
  | some i =>
    left
    have := (List.findIdx?_eq_some_iff_findIdx_eq.mp h).1
    have hlen : PREF_ORDER.length = 47 := by decide
    rw [hlen] at this
    exact this

theorem prefLeB_iff (lc : Str → Str → Int) (a b : Str) :
    prefLeB lc a b = true ↔
      (prefRank a < prefRank b ∨ (prefRank a = prefRank b ∧ lc a b ≤ 0)) := by
  unfold prefLeB
  rw [Bool.or_eq_true, Bool.and_eq_true]
  constructor
  · rintro (h | ⟨h1, h2⟩)
    · exact Or.inl (Nat.blt_eq ▸ h)
    · exact Or.inr ⟨Nat.beq_eq_true_eq _ _ ▸ h1, of_decide_eq_true h2⟩
  · rintro (h | ⟨h1, h2⟩)
    · exact Or.inl (Nat.blt_eq ▸ h)
    · exact Or.inr ⟨Nat.beq_eq_true_eq _ _ ▸ h1, decide_eq_true h2⟩

theorem prefLeB_total (lc : Str → Str → Int)
    (hlc : ∀ a b, lc a b ≤ 0 ∨ lc b a ≤ 0) (a b : Str) :
    prefLeB lc a b = true ∨ prefLeB lc b a = true := by
  rcases Nat.lt_trichotomy (prefRank a) (prefRank b) with h | h | h
  · exact Or.inl ((prefLeB_iff lc a b).mpr (Or.inl h))
  · rcases hlc a b with hl | hl
    · exact Or.inl ((prefLeB_iff lc a b).mpr (Or.inr ⟨h, hl⟩))
    · exact Or.inr ((prefLeB_iff lc b a).mpr (Or.inr ⟨h.symm, hl⟩))
  · exact Or.inr ((prefLeB_iff lc b a).mpr (Or.inl h))

theorem prefLeB_trans (lc : Str → Str → Int)
    (hlct : ∀ a b c, lc a b ≤ 0 → lc b c ≤ 0 → lc a c ≤ 0) (a b c : Str)
    (h1 : prefLeB lc a b = true) (h2 : prefLeB lc b c = true) :
    prefLeB lc a c = true := by
  rw [prefLeB_iff] at h1 h2 ⊢
  rcases h1 with h1 | ⟨h1a, h1b⟩
  · rcases h2 with h2 | ⟨h2a, h2b⟩
    · exact Or.inl (h1.trans h2)
    · exact Or.inl (h2a ▸ h1)
  · rcases h2 with h2 | ⟨h2a, h2b⟩
    · exact Or.inl (h1a ▸ h2)
    · exact Or.inr ⟨h1a.trans h2a, hlct a b c h1b h2b⟩

/-! ### Claim theorems -/

/-- Claim C8: the Normalizer is idempotent — `normalize(normalize(s)) =
normalize(s)` for every string, for both the UI's and the bot's
normalizeText. -/
theorem claimC8_normalize_idem (s : Str) :
    normalizeText (normalizeText s) = normalizeText s ∧
    botNormalizeText (botNormalizeText s) = botNormalizeText s := by
  constructor
  · rw [normalizeText_eq_gen, normalizeText_eq_gen]
    exact normGen_idem uiMapChar_space uiMapChar_idem s
  · rw [botNormalizeText_eq_gen, botNormalizeText_eq_gen]
    exact normGen_idem jsToLower_space jsToLower_idem s

/-- Claim C2 counterexample: the claim says both normalizer variants map
full-width digits to ASCII digits and hyphen variants to "-", but the bot's
normalizeText leaves full-width digits and hyphen variants unchanged. -/
theorem claimC2_counterexample :
    botNormalizeText "１２３".data = "１２３".data ∧ "１２３".data ≠ "123".data ∧
    botNormalizeText "－".data = "－".data ∧ "－".data ≠ "-".data := by decide

/-- Claim C2 amended: the UI normalizeText lowercases and maps full-width
digits, hyphen variants and full-width spaces, collapses whitespace runs to
single spaces and trims; the bot normalizeText only lowercases, collapses
whitespace (full-width space included, via `\s`) and trims, leaving
full-width digits and hyphen variants unmapped; both are total and map
null/absent (empty) input to the empty string.  The `all` clauses state
that no character of the output is still changeable by the respective
variant's character maps; `wsCanonB` states collapsed/trimmed whitespace. -/
theorem claimC2_amended_normalizers (s : Str) :
    normalizeText ([] : Str) = [] ∧ botNormalizeText ([] : Str) = [] ∧
    wsCanonB (normalizeText s) = true ∧
    (normalizeText s).all (fun c => !uiDomB c) = true ∧
    wsCanonB (botNormalizeText s) = true ∧
    (botNormalizeText s).all (fun c => !upperDomB c) = true ∧
    normalizeText "　１Ａ－ｂ  c ".data = "1ａ-ｂ c".data ∧
    botNormalizeText "　ＡＢ  c ".data = "ａｂ c".data := by
  refine ⟨rfl, rfl, ?_, ?_, ?_, ?_, by decide, by decide⟩
  · rw [normalizeText_eq_gen]
    exact wsCanon_of_trimCollapse _
  · rw [normalizeText_eq_gen]
    rw [List.all_eq_true]
    intro c hc
    have hfix := normGen_out_fixed uiMapChar_space uiMapChar_idem s c hc
    rw [← hfix]
    simp [uiMapChar_not_dom c]
  · exact wsCanon_of_trimCollapse _
  · rw [List.all_eq_true]
    intro c hc
    have hfix := normGen_out_fixed jsToLower_space jsToLower_idem s c hc
    rw [← hfix]
    simp [jsToLower_not_dom c]

/-- Claim C1: doSearch returns exactly the records passing every active
filter, AND-combined (exact pref equality, literal flag values, every term
an infix of the record's blob, zero terms passing everything); the result
is a sublist of the input (stable, order-preserving); with no active
filter every record passes. -/
theorem claimC1_doSearch (data : List PharmRec) (q : Query) :
    doSearch data q =
      data.filter (claimPasses (cleanValue q.prefVal) (termsOf q.qVal)
        q.onlyCallAhead q.onlyAfterHours) ∧
    (doSearch data q).Sublist data ∧
    ((cleanValue q.prefVal).isEmpty = true → q.onlyCallAhead = false →
      q.onlyAfterHours = false → termsOf q.qVal = [] → doSearch data q = data) := by
  refine ⟨?_, List.filter_sublist data, ?_⟩
  · unfold doSearch
    have hfun : rowPasses (cleanValue q.prefVal) (termsOf q.qVal) q.onlyCallAhead q.onlyAfterHours
        = claimPasses (cleanValue q.prefVal) (termsOf q.qVal) q.onlyCallAhead q.onlyAfterHours :=
      funext (fun r => rowPasses_eq_claimPasses _ _ _ _ r)
    rw [hfun]
  · intro h1 h2 h3 h4
    unfold doSearch
    rw [h2, h3, h4, List.isEmpty_iff.mp h1]
    apply List.filter_eq_self.mpr
    intro a _
    rfl

/-- Claim C1 witness: with no active filter, a concrete two-record set is
returned whole. -/
theorem claimC1_witness :
    doSearch [fixTokyo, fixOsaka] (Query.mk [] [] false false) = [fixTokyo, fixOsaka] :=
  (claimC1_doSearch [fixTokyo, fixOsaka] (Query.mk [] [] false false)).2.2
    (by decide) rfl rfl (by decide)

/-- Claim C3 counterexample: the claim says both consumers derive `_blob`
from the sanitized fields `pref, muni, name, addr, tel, url`; but the bot's
`_blob` (built from only `pref, muni, name, addr`, unsanitized) differs
from that six-field construction on a record with a tel value — under the
UI normalizer and under the bot's own normalizer alike. -/
theorem claimC3_counterexample :
    (botLoadRec c3Rec).blob ≠ buildSearchBlob c3Rec ∧
    (botLoadRec c3Rec).blob ≠
      botNormalizeText (joinSp (([c3Rec.pref, c3Rec.muni, c3Rec.name, c3Rec.addr,
        c3Rec.tel, c3Rec.url].map cleanValue).filter (fun s => !s.isEmpty))) := by decide

/-- Claim C3 amended: the UI's loaded `_blob` is the Normalizer applied to
the single-space join of the non-empty sanitized values of `pref, muni,
name, addr, tel, url` in that order (buildSearchBlob of the raw record —
sanitizing the fields first and then building the blob changes nothing,
because the sanitizer is idempotent); the bot's loaded `_blob` is its own
normalizer applied to the join of the truthy raw values of only
`pref, muni, name, addr`. -/
theorem claimC3_amended_blobs (r : PharmRec) :
    (uiLoadRec r).blob = buildSearchBlob r ∧
    (botLoadRec r).blob = botBlob r := by
  constructor
  · simp only [uiLoadRec, buildSearchBlob, List.map_cons, List.map_nil, cleanValue_idem]
  · rfl

/-- Claim C4: the bot's search always returns at most 5 records — the first
5 matches in data order — and the count in the reply (`上位 N 件`) is the
truncated count, as is the number of formatted entries; on a 12-match data
set the reply holds exactly 5 entries, never 12. -/
theorem claimC4_bot_truncation :
    (∀ data text, (botSearch data text).length ≤ 5 ∧
      botSearch data text = (botMatchRows data text).take 5 ∧
      botReplyCount data text = (botSearch data text).length ∧
      (botReplyEntries data text).length = (botSearch data text).length) ∧
    (botMatchRows c4Data "a".data).length = 12 ∧
    (botReplyEntries c4Data "a".data).length = 5 ∧
    botReplyCount c4Data "a".data = 5 := by
  refine ⟨fun data text => ⟨?_, rfl, rfl, ?_⟩, by decide, by decide, by decide⟩
  · exact List.length_take_le 5 (botMatchRows data text)
  · unfold botReplyEntries
    exact List.length_map _ _

/-- Claim C5: on a filtered row set of size n the first render shows
min(200, n) rows; the status always reports the total and the shown count
separately and the "show more" control is present exactly when fewer rows
are shown than matched; the k-th activation renders the same rows with the
limit extended by 200 and capped at n (shown = min(200·(k+1), n)) without
re-running the filter (the same `rows` value is re-rendered); for n = 450
the progression is 200, 400, 450, the control disappearing at 450; the
first unfiltered preview at load is capped at 50. -/
theorem claimC5_paging {α : Type} (rows : List α) :
    (renderResults rows RESULTS_STEP).shown.length = min RESULTS_STEP rows.length ∧
    (∀ k, (renderResults rows (limitSeq rows k)).shown.length =
      min (RESULTS_STEP * (k + 1)) rows.length) ∧
    (∀ limit, rows ≠ [] →
      (renderResults rows limit).statusTotal = rows.length ∧
      (renderResults rows limit).statusShown = (renderResults rows limit).shown.length ∧
      ((renderResults rows limit).hasMore = true ↔
        (renderResults rows limit).shown.length < rows.length)) ∧
    (rows.length = 450 →
      (renderResults rows (limitSeq rows 0)).shown.length = 200 ∧
      (renderResults rows (limitSeq rows 1)).shown.length = 400 ∧
      (renderResults rows (limitSeq rows 2)).shown.length = 450 ∧
      (renderResults rows (limitSeq rows 0)).hasMore = true ∧
      (renderResults rows (limitSeq rows 1)).hasMore = true ∧
      (renderResults rows (limitSeq rows 2)).hasMore = false) ∧
    (initPreview rows).shown.length = min 50 rows.length := by
  have hshown : ∀ limit, (renderResults rows limit).shown.length = min limit rows.length :=
    fun limit => renderResults_shown_len rows limit
  have hk : ∀ k, (renderResults rows (limitSeq rows k)).shown.length =
      min (RESULTS_STEP * (k + 1)) rows.length := by
    intro k
    rw [hshown, limitSeq_min]
  refine ⟨?_, hk, ?_, ?_, ?_⟩
  · exact hshown RESULTS_STEP
  · intro limit hne
    obtain ⟨ht, hs, hm⟩ := renderResults_fields rows limit hne
    refine ⟨ht, ?_, ?_⟩
    · rw [hs, hshown, List.length_take]
    · rw [hm, hshown, List.length_take]
      exact decide_eq_true_iff
  · intro h450
    have hne : rows ≠ [] := by
      intro h0
      rw [h0] at h450
      simp at h450
    have hmore : ∀ k, (renderResults rows (limitSeq rows k)).hasMore =
        decide ((rows.take (limitSeq rows k)).length < rows.length) :=
      fun k => (renderResults_fields rows (limitSeq rows k) hne).2.2
    have htake : ∀ k, (rows.take (limitSeq rows k)).length =
        min (RESULTS_STEP * (k + 1)) rows.length := by
      intro k
      rw [List.length_take, limitSeq_min]
    refine ⟨?_, ?_, ?_, ?_, ?_, ?_⟩
    · rw [hk 0, h450]
      decide
    · rw [hk 1, h450]
      decide
    · rw [hk 2, h450]
      decide
    · rw [hmore 0, htake 0, h450]
      simp [RESULTS_STEP]
    · rw [hmore 1, htake 1, h450]
      simp [RESULTS_STEP]
    · rw [hmore 2, htake 2, h450]
      simp [RESULTS_STEP]
  · unfold initPreview
    rw [renderResults_shown_len (rows.take 50) 50, List.length_take]
    omega

/-- Claim C6 counterexample.  First part: a text containing the data
prefecture 東京都 for which detectPref returns 大阪府 (the first match in
the data's distinct-pref order), not 東京都 — refuting "returns that
prefecture".  Second part: a text containing no prefecture name of the
data (neither 東京都 nor its stripped form 東京 occurs in the raw text)
for which detectPref nevertheless returns 東京都, because matching happens
on the whitespace-stripped text — refuting "returns the empty string". -/
theorem claimC6_counterexample :
    (containsSub "大阪府と東京都".data "東京都".data = true ∧
      detectPref [c6RecOsaka, c6RecTokyo] "大阪府と東京都".data = "大阪府".data ∧
      "大阪府".data ≠ "東京都".data) ∧
    (containsSub "東 京都".data "東京都".data = false ∧
      containsSub "東 京都".data "東京".data = false ∧
      detectPref [c6RecTokyo] "東 京都".data = "東京都".data ∧
      "東京都".data ≠ ([] : Str)) := by decide

/-- Claim C6 amended: detectPref strips all whitespace from the text, then
scans the data's distinct prefectures in first-occurrence order and
returns the first one whose full name or (nonempty) suffix-stripped name
occurs in the stripped text; if no prefecture matches it returns the empty
string (no prefecture filter applied). -/
theorem claimC6_amended_detectPref (data : List PharmRec) (text : Str) :
    ((∀ p ∈ prefsOf data, prefMatch (stripWsAll text) p = false) →
      detectPref data text = []) ∧
    (∀ p ∈ prefsOf data, prefMatch (stripWsAll text) p = true →
      detectPref data text ≠ [] ∧ detectPref data text ∈ prefsOf data ∧
      prefMatch (stripWsAll text) (detectPref data text) = true ∧
      ∃ l1 l2, prefsOf data = l1 ++ detectPref data text :: l2 ∧
        ∀ q ∈ l1, prefMatch (stripWsAll text) q = false) := by
  constructor
  · intro h
    exact findPref_none h
  · intro p hp hm
    obtain ⟨l1, l2, heq, hl1, hm2⟩ := findPref_found hp hm
    have hmem : detectPref data text ∈ prefsOf data := by
      rw [heq]
      exact List.mem_append_right _ (List.mem_cons_self _ _)
    have hne : detectPref data text ≠ [] := by
      intro h0
      have := prefsOf_ne_nil_mem data _ hmem
      rw [h0] at this
      simp at this
    exact ⟨hne, hmem, hm2, l1, l2, heq, hl1⟩

/-- Claim C6 witness: on a one-record Tokyo data set, the stripped query
東京 is detected as 東京都. -/
theorem claimC6_witness :
    detectPref [c6RecTokyo] "東京".data ≠ [] ∧
    detectPref [c6RecTokyo] "東京".data ∈ prefsOf [c6RecTokyo] ∧
    prefMatch (stripWsAll "東京".data) (detectPref [c6RecTokyo] "東京".data) = true := by
  have h := (claimC6_amended_detectPref [c6RecTokyo] "東京".data).2 "東京都".data
    (by decide) (by decide)
  exact ⟨h.1, h.2.1, h.2.2.1⟩

/-- Claim C7: the prefecture orderer (modelled as a stable sort by the
fillPrefOptions comparator, with the Japanese collator abstracted as any
total preorder lc) permutes its input; sorts by canonical table rank;
places every name not in the 47-entry table (rank 999) after all canonical
names; breaks rank ties by the collator; and on {沖縄県, 北海道, 東京都}
returns [北海道, 東京都, 沖縄県] for every collator. -/
theorem claimC7_pref_order (lc : Str → Str → Int)
    (hto : ∀ a b, lc a b ≤ 0 ∨ lc b a ≤ 0)
    (htr : ∀ a b c, lc a b ≤ 0 → lc b c ≤ 0 → lc a c ≤ 0)
    (names : List Str) :
    (sortPrefs lc names).Perm names ∧
    List.Pairwise (fun a b => prefRank a ≤ prefRank b) (sortPrefs lc names) ∧
    List.Pairwise (fun a b => prefRank a = 999 → prefRank b = 999) (sortPrefs lc names) ∧
    List.Pairwise (fun a b => prefRank a = prefRank b → lc a b ≤ 0) (sortPrefs lc names) ∧
    sortPrefs lc ["沖縄県".data, "北海道".data, "東京都".data] =
      ["北海道".data, "東京都".data, "沖縄県".data] := by
  haveI hT : IsTotal Str (fun a b => prefLeB lc a b = true) := ⟨prefLeB_total lc hto⟩
  haveI hR : IsTrans Str (fun a b => prefLeB lc a b = true) := ⟨prefLeB_trans lc htr⟩
  have hsorted : List.Pairwise (fun a b => prefLeB lc a b = true) (sortPrefs lc names) :=
    List.sorted_insertionSort _ names
  refine ⟨List.perm_insertionSort _ _, ?_, ?_, ?_, rfl⟩
  · refine hsorted.imp ?_
    intro a b hab
    rcases (prefLeB_iff lc a b).mp hab with h | ⟨h, _⟩
    · exact Nat.le_of_lt h
    · exact Nat.le_of_eq h
  · refine hsorted.imp ?_
    intro a b hab ha
    rcases (prefLeB_iff lc a b).mp hab with h | ⟨h, _⟩
    · rw [ha] at h
      rcases prefRank_bound b with hb | hb
      · omega
      · exact hb
    · rw [← h, ha]
  · refine hsorted.imp ?_
    intro a b hab heq
    rcases (prefLeB_iff lc a b).mp hab with h | ⟨_, h⟩
    · omega
    · exact h

/-- Claim C7 witness: the concrete ordering instance, with the trivial
collator discharging the totality and transitivity hypotheses. -/
theorem claimC7_witness :
    sortPrefs (fun _ _ => (0 : Int)) ["沖縄県".data, "北海道".data, "東京都".data] =
      ["北海道".data, "東京都".data, "沖縄県".data] :=
  (claimC7_pref_order (fun _ _ => 0) (fun _ _ => Or.inl (le_refl 0))
    (fun _ _ _ _ _ => le_refl 0) []).2.2.2.2

/-- Claim C10: when the bot detects prefecture p in the query, no term of
the surviving term list terms2 equals lowercased p or its lowercased
suffix-stripped form; and a query whose normalized terms are all such
prefecture tokens is answered by the prefecture filter alone (first 5 of
the records with pref = p) with no substring requirement applied. -/
theorem claimC10_bot_pref_terms (data : List PharmRec) (text : Str) (p : Str)
    (h1 : detectPref data text = p) (h2 : p.isEmpty = false) :
    (∀ t ∈ botTerms2 data text,
      t ≠ p.map jsToLower ∧ t ≠ (stripPrefSuffix p).map jsToLower) ∧
    ((botTermsOf text).all (fun t => isPrefToken p t) = true →
      botSearch data text = (data.filter (fun r => r.pref == p)).take 5) := by
  constructor
  · intro t ht
    unfold botTerms2 at ht
    have hmem := List.of_mem_filter ht
    rw [h1] at hmem
    rw [Bool.not_eq_true'] at hmem
    unfold isPrefToken at hmem
    rw [h2] at hmem
    simp only [Bool.not_false, Bool.true_and, Bool.or_eq_false_iff] at hmem
    obtain ⟨ha, hb⟩ := hmem
    constructor
    · exact fun heq => absurd (beq_iff_eq.mpr heq) (by rw [ha]; simp)
    · exact fun heq => absurd (beq_iff_eq.mpr heq) (by rw [hb]; simp)
  · intro hall
    have ht2 : (botTermsOf text).filter (fun t => !isPrefToken p t) = [] := by
      rw [List.filter_eq_nil_iff]
      intro t ht
      have := List.all_eq_true.mp hall t ht
      simp [this]
    simp only [botSearch, botMatchRows, h1, ht2, h2]
    simp

/-- Claim C10 witness: on a one-record Tokyo data set, the term 港区 of the
query 東京都 港区 survives the prefecture-token removal, and the pure
prefecture query 東京都 reduces to the prefecture filter alone. -/
theorem claimC10_witness :
    ("港区".data ≠ "東京都".data.map jsToLower ∧
      "港区".data ≠ (stripPrefSuffix "東京都".data).map jsToLower) ∧
    botSearch c10Data "東京都".data =
      (c10Data.filter (fun r => r.pref == "東京都".data)).take 5 :=
  ⟨(claimC10_bot_pref_terms c10Data "東京都 港区".data "東京都".data (by decide)
      (by decide)).1 "港区".data (by decide),
    (claimC10_bot_pref_terms c10Data "東京都".data "東京都".data (by decide)
      (by decide)).2 (by decide)⟩

/-- Claim C5 witness: the 450-row progression at a concrete row set. -/
theorem claimC5_witness :
    (renderResults (List.replicate 450 (0 : Nat))
      (limitSeq (List.replicate 450 (0 : Nat)) 1)).shown.length = 400 ∧
    (renderResults (List.replicate 450 (0 : Nat))
      (limitSeq (List.replicate 450 (0 : Nat)) 2)).hasMore = false ∧
    (renderResults (List.replicate 450 (0 : Nat)) 200).statusTotal = 450 := by
  have h := claimC5_paging (List.replicate 450 (0 : Nat))
  have h450 : (List.replicate 450 (0 : Nat)).length = 450 := by
    rw [List.length_replicate]
  have hne : (List.replicate 450 (0 : Nat)) ≠ [] := by
    intro h0
    rw [h0] at h450
    simp at h450
  obtain ⟨-, -, hstat, hconc, -⟩ := h
  obtain ⟨h1, h2, h3, h4, h5, h6⟩ := hconc h450
  exact ⟨h2, h6, ((hstat 200 hne).1).trans h450⟩

/-! ### renderCard markup-count invariance -/

theorem ltCount_append (l1 l2 : Str) : ltCount (l1 ++ l2) = ltCount l1 + ltCount l2 :=
  List.count_append '<' l1 l2

theorem maskStr_isEmpty (s : Str) : (maskStr s).isEmpty = s.isEmpty := by
  unfold maskStr
  by_cases h : s.isEmpty = true
  · rw [if_pos h, h]; rfl
  · have h' : s.isEmpty = false := by simpa using h
    rw [h', if_neg (by simp)]
    rfl

theorem jsTrim_maskStr (s : Str) : jsTrim (maskStr s) = maskStr s := by
  unfold maskStr
  by_cases h : s.isEmpty = true
  · rw [if_pos h]; rfl
  · have h' : s.isEmpty = false := by simpa using h
    rw [if_neg (by simp [h'])]
    decide

theorem renderCard_count_lt_mask (r : PharmRec) :
    ltCount (renderCard r) = ltCount (renderCard (maskRec r)) := by
  simp only [renderCard, maskRec]
  simp only [jsTrim_maskStr, maskStr_isEmpty, escapeHtml_isEmpty]
  simp only [ltCount, List.count_append, apply_ite (List.count '<'), escapeHtml_count_lt]
  simp only [apply_ite List.isEmpty, List.cons_append, List.isEmpty_cons, List.isEmpty_nil]

/-- Claim C9: escapeHtml's output contains none of the characters <, >,
double-quote, single-quote; every ampersand of the output begins one of
the entities amp, lt, gt, quot, #039 (so no markup survives and the
source is recoverable); and — since every record field interpolated into
the card template passes through escapeHtml — the number of
markup-opening "<" characters of a rendered card is independent of the
record's field contents: masking every text field with a placeholder of
the same emptiness leaves the count unchanged. -/
theorem claimC9_escape_safety (s : Str) (r : PharmRec) :
    (escapeHtml s).all htmlSafeB = true ∧
    (∀ l1 l2, escapeHtml s = l1 ++ '&' :: l2 → ∃ e ∈ entityTails, e <+: l2) ∧
    ltCount (renderCard r) = ltCount (renderCard (maskRec r)) :=
  ⟨escapeHtml_safe s, ampOkB_spec (escapeHtml_ampOk s), renderCard_count_lt_mask r⟩

/-- Claim C9 witness: the ampersand of escapeHtml "<" begins the entity
whose tail is "lt;". -/
theorem claimC9_witness : ∃ e ∈ entityTails, e <+: "lt;".data :=
  (claimC9_escape_safety "<".data
    (PharmRec.mk [] [] [] [] [] [] [] [] [] [] [] [])).2.1 [] "lt;".data (by decide)
